import Mathlib

/-!
Verification of the `hex-words` program (`src/main.rs`).

The program reads a newline-delimited wordlist, keeps the words whose
characters all belong to the alphabet `abcdefgilostz`, optionally renders
each kept word as a hexadecimal-looking string, sorts the results, writes
them to an optional output file and prints summary statistics.

Each Rust function is embedded as a Lean definition of the same name
(strings are Lean `String`s, the `HashSet` subset test becomes a `Finset`
subset test, the `HashMap` becomes an association-list lookup, the f64
statistics arithmetic becomes an explicit IEEE-style value model).
-/

namespace HexWords

/-- The `valid_letters` set built in `find_words`:
`"abcdefgilostz".chars().collect::<HashSet<char>>()`. -/
def valid_letters : List Char := "abcdefgilostz".data

/-- The filtering test of `find_words`:
`word.chars().collect::<HashSet<char>>().is_subset(&valid_letters)`,
i.e. the set of distinct characters of the word is a subset of
`valid_letters`. -/
def wordQualifies (w : String) : Bool :=
  decide (w.data.toFinset ⊆ valid_letters.toFinset)

/-- The `letter_to_hex` table of `translate_to_hex`, as an association list
(the Rust `HashMap` is built from exactly these pairs; all keys are
distinct, so lookup agrees with `HashMap::get`). -/
def letter_to_hex : List (Char × Char) :=
  [('a', 'A'), ('b', 'B'), ('c', 'C'), ('d', 'D'), ('e', 'E'), ('f', 'F'),
   ('g', '6'), ('i', '1'), ('l', '1'), ('o', '0'), ('s', '5'), ('t', '7'),
   ('z', '2')]

/-- The per-character map of `translate_to_hex`:
`letter_to_hex.get(&c).unwrap_or(&'?')`. -/
def lookupHex (c : Char) : Char :=
  (letter_to_hex.lookup c).getD '?'

/-- `translate_to_hex`: map every character through the table and prefix
`0x` (Rust: `format!("0x{}", hex_string)`). -/
def translate_to_hex (word : String) : String :=
  "0x" ++ String.mk (word.data.map lookupHex)

/-- The entry pushed for a qualifying word in `find_words`:
`format!("{}:{}", word, translated)` when `translate` is set, the bare
word otherwise. -/
def mkEntry (translate : Bool) (word : String) : String :=
  if translate then word ++ ":" ++ translate_to_hex word else word

/-- `find_words`: keep the words whose distinct-character set is a subset
of `valid_letters`, formatting each kept word with `mkEntry`.  (The Rust
function wraps the vector in `io::Result` but never produces an error, so
the embedding returns the list directly.) -/
def find_words (wordlist : List String) (translate : Bool) : List String :=
  wordlist.filterMap fun word =>
    if wordQualifies word then some (mkEntry translate word) else none

/-- Split a character list at every newline; the final segment (after the
last newline, possibly empty) is always produced. -/
def splitNl : List Char → List (List Char)
  | [] => [[]]
  | c :: rest =>
    if c = '\n' then [] :: splitNl rest
    else
      match splitNl rest with
      | [] => [[c]]
      | l :: ls => (c :: l) :: ls

/-- Strip one trailing carriage return (Rust `BufRead::lines` removes a
trailing `\r` of a `\r\n` ending). -/
def dropCr (l : List Char) : List Char :=
  match l.getLast? with
  | some c => if c = '\r' then l.dropLast else l
  | none => l

/-- The line iterator `reader.lines()` of `read_words_from_file`: split the
file contents at newlines; a trailing newline produces no final empty
line, and each line loses a trailing `\r`. -/
def rustLines (s : String) : List String :=
  let parts := splitNl s.data
  let parts :=
    match parts.getLast? with
    | some [] => parts.dropLast
    | _ => parts
  parts.map fun l => String.mk (dropCr l)

/-- The Unicode `White_Space` characters, the set removed by Rust
`str::trim`. -/
def wsChars : List Char :=
  ['\t', '\n', '\x0b', '\x0c', '\r', ' ', '\u0085', '\u00a0', '\u1680',
   '\u2000', '\u2001', '\u2002', '\u2003', '\u2004', '\u2005', '\u2006',
   '\u2007', '\u2008', '\u2009', '\u200a', '\u2028', '\u2029', '\u202f',
   '\u205f', '\u3000']

/-- Whitespace test used by the trim model. -/
def isWs (c : Char) : Bool := wsChars.contains c

/-- Remove leading and trailing whitespace from a character list. -/
def trimList (l : List Char) : List Char :=
  ((l.dropWhile isWs).reverse.dropWhile isWs).reverse

/-- `line.trim()` on strings. -/
def trimStr (s : String) : String := String.mk (trimList s.data)

/-- `read_words_from_file`: read the lines of the file contents, trim each
one, and keep the non-empty results in order.  (I/O errors opening or
reading the file propagate in Rust before any processing; the embedding
takes the successfully read contents as input.) -/
def read_words_from_file (contents : String) : List String :=
  (rustLines contents).filterMap fun line =>
    let word := trimStr line
    if word.data.isEmpty then none else some word

/-- Lexicographic comparison of character lists by codepoint, the order
Rust `Vec::<String>::sort` uses on strings (byte order of UTF-8 equals
codepoint order). -/
def lexLe : List Char → List Char → Bool
  | [], _ => true
  | _ :: _, [] => false
  | a :: as, b :: bs =>
    if a < b then true else if b < a then false else lexLe as bs

/-- The string order of `valid_words.sort()`. -/
def strLe (a b : String) : Prop := lexLe a.data b.data = true

instance : DecidableRel strLe := fun a b =>
  inferInstanceAs (Decidable (lexLe a.data b.data = true))

/-- `valid_words.sort()`: Rust's stable sort.  Because `strLe` is an
antisymmetric total order, the sorted permutation of a list of strings is
unique, so any sorting algorithm gives the same result; the embedding
uses insertion sort. -/
def sortResults (l : List String) : List String := List.insertionSort strLe l

/-- Model of the IEEE-754 double values produced by the statistics
computation: a finite value carried exactly as a rational (rounding is not
modelled; it does not affect the zero and NaN cases, which follow the
IEEE-754 special-value rules exactly). -/
inductive FVal where
  | finite (q : ℚ)
  | nan
  | inf
  | ninf
deriving DecidableEq

/-- IEEE-754 division on the value model: `0/0` and NaN operands give NaN,
`x/0` for finite nonzero `x` gives a signed infinity. -/
def fdiv : FVal → FVal → FVal
  | FVal.nan, _ => FVal.nan
  | _, FVal.nan => FVal.nan
  | FVal.finite a, FVal.finite b =>
    if b = 0 then
      if a = 0 then FVal.nan else if 0 < a then FVal.inf else FVal.ninf
    else FVal.finite (a / b)
  | FVal.finite _, FVal.inf => FVal.finite 0
  | FVal.finite _, FVal.ninf => FVal.finite 0
  | FVal.inf, FVal.finite b => if 0 ≤ b then FVal.inf else FVal.ninf
  | FVal.ninf, FVal.finite b => if 0 ≤ b then FVal.ninf else FVal.inf
  | FVal.inf, FVal.inf => FVal.nan
  | FVal.inf, FVal.ninf => FVal.nan
  | FVal.ninf, FVal.inf => FVal.nan
  | FVal.ninf, FVal.ninf => FVal.nan

/-- IEEE-754 multiplication on the value model (NaN propagates). -/
def fmul : FVal → FVal → FVal
  | FVal.nan, _ => FVal.nan
  | _, FVal.nan => FVal.nan
  | FVal.finite a, FVal.finite b => FVal.finite (a * b)
  | FVal.finite a, FVal.inf =>
    if a = 0 then FVal.nan else if 0 < a then FVal.inf else FVal.ninf
  | FVal.finite a, FVal.ninf =>
    if a = 0 then FVal.nan else if 0 < a then FVal.ninf else FVal.inf
  | FVal.inf, FVal.finite b =>
    if b = 0 then FVal.nan else if 0 < b then FVal.inf else FVal.ninf
  | FVal.ninf, FVal.finite b =>
    if b = 0 then FVal.nan else if 0 < b then FVal.ninf else FVal.inf
  | FVal.inf, FVal.inf => FVal.inf
  | FVal.inf, FVal.ninf => FVal.ninf
  | FVal.ninf, FVal.inf => FVal.ninf
  | FVal.ninf, FVal.ninf => FVal.inf

/-- The percentage printed by `main`:
`total_valid as f64 / total_words as f64 * 100.0`. -/
def percentValid (totalValid totalWords : Nat) : FVal :=
  fmul (fdiv (FVal.finite totalValid) (FVal.finite totalWords))
    (FVal.finite 100)

/-- The per-line write loop of `main`: write each sorted word with
`writeln!`; on the first failing write print the failure notice and
`break`.  `fails i` tells whether the `i`-th `writeln!` call fails; the
result is the list of lines actually written and whether the failure
notice was printed.  There is no rollback: written lines are kept. -/
def writeLoop (fails : Nat → Bool) : Nat → List String → List String × Bool
  | _, [] => ([], false)
  | i, w :: ws =>
    if fails i then ([], true)
    else
      let r := writeLoop fails (i + 1) ws
      (w :: r.1, r.2)

/-- Observable outcome of one run of `main` after the input file has been
read successfully: the lines written to the output file, which notices
were printed, the statistics, and whether `main` returned `Ok(())`. -/
structure RunResult where
  totalWords : Nat
  validWords : List String
  written : List String
  failNotice : Bool
  successNotice : Bool
  totalValid : Nat
  percent : FVal
  exitOk : Bool

/-- `main` after `read_words_from_file` succeeded on the given file
contents: filter (and optionally translate), sort, optionally write each
line to the output file (`output = some fails` models `-o` given with the
file created successfully and `fails` the per-line `writeln!` outcomes;
`none` models no `-o`), print the success message when an output path was
given, then compute the statistics from the in-memory lists.  `main` ends
with `Ok(())`. -/
def runProgram (contents : String) (translate : Bool)
    (output : Option (Nat → Bool)) : RunResult :=
  let words := read_words_from_file contents
  let valid := sortResults (find_words words translate)
  let wr :=
    match output with
    | none => ([], false)
    | some fails => writeLoop fails 0 valid
  { totalWords := words.length
    validWords := valid
    written := wr.1
    failNotice := wr.2
    successNotice := output.isSome
    totalValid := valid.length
    percent := percentValid valid.length words.length
    exitOk := true }

theorem valid_letters_eq :
    valid_letters =
      ['a', 'b', 'c', 'd', 'e', 'f', 'g', 'i', 'l', 'o', 's', 't', 'z'] := by
  decide

/-- **C1.** The filter accepts a word iff every character of the word is a
member of the allowed alphabet `{a,b,c,d,e,f,g,i,l,o,s,t,z}`; hence any
word with a character outside this set is rejected. -/
theorem filter_accepts_iff_every_char_allowed (w : String) :
    wordQualifies w = true ↔
      ∀ c ∈ w.data,
        c ∈ (['a', 'b', 'c', 'd', 'e', 'f', 'g', 'i', 'l', 'o', 's', 't',
              'z'] : List Char) := by
  rw [← valid_letters_eq]
  unfold wordQualifies
  rw [decide_eq_true_iff]
  constructor
  · intro h c hc
    exact List.mem_toFinset.mp (h (List.mem_toFinset.mpr hc))
  · intro h c hc
    exact List.mem_toFinset.mpr (h c (List.mem_toFinset.mp hc))

/-- **C2.** The per-character translator is total: each table key maps to
exactly its table glyph (a→A, b→B, c→C, d→D, e→E, f→F, g→6, i→1, l→1,
o→0, s→5, t→7, z→2), and every character that is not a key of the table
maps to the literal `?`. -/
theorem translator_total_function :
    (lookupHex 'a' = 'A' ∧ lookupHex 'b' = 'B' ∧ lookupHex 'c' = 'C' ∧
     lookupHex 'd' = 'D' ∧ lookupHex 'e' = 'E' ∧ lookupHex 'f' = 'F' ∧
     lookupHex 'g' = '6' ∧ lookupHex 'i' = '1' ∧ lookupHex 'l' = '1' ∧
     lookupHex 'o' = '0' ∧ lookupHex 's' = '5' ∧ lookupHex 't' = '7' ∧
     lookupHex 'z' = '2') ∧
    ∀ c : Char, c ∉ letter_to_hex.map Prod.fst → lookupHex c = '?' := by
  refine ⟨by decide, ?_⟩
  intro c h
  simp only [letter_to_hex, List.map_cons, List.map_nil, List.mem_cons,
    List.not_mem_nil, or_false, not_or] at h
  obtain ⟨h1, h2, h3, h4, h5, h6, h7, h8, h9, h10, h11, h12, h13⟩ := h
  simp [lookupHex, letter_to_hex, List.lookup,
    beq_eq_false_iff_ne.mpr h1, beq_eq_false_iff_ne.mpr h2,
    beq_eq_false_iff_ne.mpr h3, beq_eq_false_iff_ne.mpr h4,
    beq_eq_false_iff_ne.mpr h5, beq_eq_false_iff_ne.mpr h6,
    beq_eq_false_iff_ne.mpr h7, beq_eq_false_iff_ne.mpr h8,
    beq_eq_false_iff_ne.mpr h9, beq_eq_false_iff_ne.mpr h10,
    beq_eq_false_iff_ne.mpr h11, beq_eq_false_iff_ne.mpr h12,
    beq_eq_false_iff_ne.mpr h13]

/-- Witness for C2: the translator at the key `g` and at the non-key `h`. -/
theorem translator_total_function_witness :
    lookupHex 'g' = '6' ∧ lookupHex 'h' = '?' :=
  ⟨translator_total_function.1.2.2.2.2.2.2.1,
   translator_total_function.2 'h' (by decide)⟩

/-- **C3.** In translate mode every qualifying word `w` of the wordlist is
emitted as the single string `w ++ ":" ++ translate_to_hex w`, and the
translation begins with `0x` (its first two characters are `0` and `x`). -/
theorem translate_mode_entry_format (wordlist : List String) (w : String)
    (hmem : w ∈ wordlist) (hq : wordQualifies w = true) :
    (w ++ ":" ++ translate_to_hex w) ∈ find_words wordlist true ∧
    (translate_to_hex w).data.take 2 = ['0', 'x'] := by
  constructor
  · unfold find_words
    refine List.mem_filterMap.mpr ⟨w, hmem, ?_⟩
    simp [hq, mkEntry]
  · rfl

/-- Witness for C3: the word `fig` yields exactly the entry `fig:0xF16`. -/
theorem translate_mode_entry_format_witness :
    ("fig" ++ ":" ++ translate_to_hex "fig") ∈ find_words ["fig"] true ∧
    find_words ["fig"] true = ["fig:0xF16"] :=
  ⟨(translate_mode_entry_format ["fig"] "fig" (by decide) (by decide)).1,
   by decide⟩

/-- **C4.** For every word accepted by the filter, the transformer output
is `0x` followed by exactly one glyph per input character in original
order, so its length equals the word's length plus 2. -/
theorem transformer_length_and_shape (w : String)
    (hq : wordQualifies w = true) :
    (translate_to_hex w).data = '0' :: 'x' :: w.data.map lookupHex ∧
    (translate_to_hex w).length = w.length + 2 := by
  constructor
  · rfl
  · show (translate_to_hex w).data.length = w.data.length + 2
    rw [translate_to_hex, String.data_append]
    simp [String.mk]

/-- Witness for C4 at the concrete accepted word `fig`. -/
theorem transformer_length_and_shape_witness :
    (translate_to_hex "fig").length = "fig".length + 2 :=
  (transformer_length_and_shape "fig" (by decide)).2

theorem filterMap_trim_eq (l : List String) :
    (l.filterMap fun line =>
      let word := trimStr line
      if word.data.isEmpty then none else some word) =
      (l.map trimStr).filter fun w => !w.data.isEmpty := by
  induction l with
  | nil => rfl
  | cons a l ih =>
    simp only [List.isEmpty_iff] at ih
    by_cases h : (trimStr a).data = [] <;>
      simp [List.filterMap_cons, List.filter_cons, List.isEmpty_iff, h, ih]

/-- **C5.** Reading the input yields exactly the lines trimmed of
surrounding whitespace with the lines that become empty dropped; the
total word count reported by `main` counts the retained words, so the
input `"  cab  \n\n\nfig\n"` yields the words `cab, fig` and a total
count of 2. -/
theorem read_words_trims_and_drops_empty :
    (∀ contents : String,
      read_words_from_file contents =
        ((rustLines contents).map trimStr).filter fun w => !w.data.isEmpty) ∧
    read_words_from_file "  cab  \n\n\nfig\n" = ["cab", "fig"] ∧
    (read_words_from_file "  cab  \n\n\nfig\n").length = 2 ∧
    (∀ contents : String, ∀ tr : Bool,
      (runProgram contents tr none).totalWords
        = (read_words_from_file contents).length) :=
  ⟨fun contents => filterMap_trim_eq (rustLines contents), by decide,
   by decide, fun _ _ => rfl⟩

theorem lexLe_total (a b : List Char) :
    lexLe a b = true ∨ lexLe b a = true := by
  induction a generalizing b with
  | nil => left; rfl
  | cons x xs ih =>
    cases b with
    | nil => right; rfl
    | cons y ys =>
      rcases lt_trichotomy x y with h | h | h
      · left; simp [lexLe, h]
      · subst h
        rcases ih ys with h2 | h2
        · left; simp [lexLe, lt_irrefl, h2]
        · right; simp [lexLe, lt_irrefl, h2]
      · right; simp [lexLe, h]

theorem lexLe_trans {a b c : List Char} (hab : lexLe a b = true)
    (hbc : lexLe b c = true) : lexLe a c = true := by
  induction a generalizing b c with
  | nil => rfl
  | cons x xs ih =>
    cases b with
    | nil => simp [lexLe] at hab
    | cons y ys =>
      cases c with
      | nil => simp [lexLe] at hbc
      | cons z zs =>
        simp only [lexLe] at hab hbc ⊢
        by_cases hxy : x < y
        · by_cases hyz : y < z
          · simp [lt_trans hxy hyz]
          · by_cases hzy : z < y
            · simp [lexLe, hyz, hzy] at hbc
            · have : y = z := le_antisymm (not_lt.mp hzy) (not_lt.mp hyz)
              subst this
              simp [hxy]
        · by_cases hyx : y < x
          · simp [hxy, hyx] at hab
          · have : x = y := le_antisymm (not_lt.mp hyx) (not_lt.mp hxy)
            subst this
            simp only [lt_irrefl, if_false] at hab
            by_cases hyz : x < z
            · simp [hyz]
            · by_cases hzy : z < x
              · simp [hyz, hzy] at hbc
              · have : x = z := le_antisymm (not_lt.mp hzy) (not_lt.mp hyz)
                subst this
                simp only [lt_irrefl, if_false] at hbc ⊢
                exact ih hab hbc

instance : IsTotal String strLe := ⟨fun a b => lexLe_total a.data b.data⟩

instance : IsTrans String strLe := ⟨fun _ _ _ => lexLe_trans⟩

/-- **C6.** The emitted result set is the collected sequence of qualifying
entries sorted as plain strings in ascending lexical (codepoint) order:
it is a permutation of the `find_words` output and it is sorted under
`strLe`. -/
theorem results_sorted_ascending (contents : String) (tr : Bool)
    (out : Option (Nat → Bool)) :
    (runProgram contents tr out).validWords.Perm
        (find_words (read_words_from_file contents) tr) ∧
    List.Sorted strLe (runProgram contents tr out).validWords := by
  have h : (runProgram contents tr out).validWords
      = sortResults (find_words (read_words_from_file contents) tr) := rfl
  rw [h]
  exact ⟨List.perm_insertionSort strLe _, List.sorted_insertionSort strLe _⟩

theorem writeLoop_stops (fails : Nat → Bool) :
    ∀ (lines : List String) (i0 n : Nat),
      (∀ j, j < n → fails (i0 + j) = false) → fails (i0 + n) = true →
      n < lines.length →
      writeLoop fails i0 lines = (lines.take n, true) := by
  intro lines
  induction lines with
  | nil =>
    intro i0 n _ _ hlen
    simp at hlen
  | cons w ws ih =>
    intro i0 n hb hn hlen
    cases n with
    | zero =>
      simp only [Nat.add_zero] at hn
      simp [writeLoop, hn]
    | succ n =>
      have h0 : fails i0 = false := by
        have h := hb 0 (Nat.succ_pos n)
        simpa using h
      have recres := ih (i0 + 1) n
        (fun j hj => by
          have h := hb (j + 1) (Nat.succ_lt_succ hj)
          rw [show i0 + 1 + j = i0 + (j + 1) by omega]
          exact h)
        (by
          rw [show i0 + 1 + n = i0 + (n + 1) by omega]
          exact hn)
        (Nat.lt_of_succ_lt_succ hlen)
      simp [writeLoop, h0, recres]

/-- **C7.** If the `i`-th per-line write fails (and the earlier ones
succeed), the program stops writing after the first `i` lines (which
remain written, with no rollback), prints the failure notice, does not
re-raise the error (`main` still returns `Ok`), and still computes the
statistics from the in-memory result set. -/
theorem partial_write_recovery (contents : String) (tr : Bool)
    (fails : Nat → Bool) (i : Nat)
    (hb : ∀ j, j < i → fails j = false) (hi : fails i = true)
    (hlen :
      i < (sortResults (find_words (read_words_from_file contents) tr)).length) :
    (runProgram contents tr (some fails)).written
        = (sortResults (find_words (read_words_from_file contents) tr)).take i ∧
    (runProgram contents tr (some fails)).failNotice = true ∧
    (runProgram contents tr (some fails)).exitOk = true ∧
    (runProgram contents tr (some fails)).totalValid
        = (sortResults (find_words (read_words_from_file contents) tr)).length ∧
    (runProgram contents tr (some fails)).percent
        = percentValid
            (sortResults (find_words (read_words_from_file contents) tr)).length
            (read_words_from_file contents).length := by
  have hw := writeLoop_stops fails
    (sortResults (find_words (read_words_from_file contents) tr)) 0 i
    (fun j hj => by simpa using hb j hj) (by simpa using hi) hlen
  refine ⟨?_, ?_, rfl, rfl, rfl⟩
  · show (writeLoop fails 0
      (sortResults (find_words (read_words_from_file contents) tr))).1 = _
    rw [hw]
  · show (writeLoop fails 0
      (sortResults (find_words (read_words_from_file contents) tr))).2 = true
    rw [hw]

/-- Witness for C7: input `cab`, always-failing writer, failure at line 0:
nothing is written, the notice appears, the run still ends in `Ok` with
the statistics of the in-memory result set. -/
theorem partial_write_recovery_witness :
    (runProgram "cab\n" false (some fun _ => true)).written
        = (sortResults (find_words (read_words_from_file "cab\n") false)).take 0 ∧
    (runProgram "cab\n" false (some fun _ => true)).failNotice = true ∧
    (runProgram "cab\n" false (some fun _ => true)).exitOk = true ∧
    (runProgram "cab\n" false (some fun _ => true)).totalValid
        = (sortResults (find_words (read_words_from_file "cab\n") false)).length ∧
    (runProgram "cab\n" false (some fun _ => true)).percent
        = percentValid
            (sortResults (find_words (read_words_from_file "cab\n") false)).length
            (read_words_from_file "cab\n").length :=
  partial_write_recovery "cab\n" false (fun _ => true) 0
    (fun j hj => absurd hj (Nat.not_lt_zero j)) rfl (by decide)

/-- **C8.** On an empty input file the total and qualifying counts are 0
and the percentage computation divides zero by zero, which under IEEE-754
yields NaN — a non-numeric result, not a crash and not a policy value
such as 0%. -/
theorem empty_input_percentage_nan :
    read_words_from_file "" = [] ∧
    (runProgram "" false none).totalWords = 0 ∧
    (runProgram "" false none).totalValid = 0 ∧
    (runProgram "" false none).percent = FVal.nan ∧
    (runProgram "" false none).percent ≠ FVal.finite 0 := by
  refine ⟨rfl, rfl, rfl, ?_, ?_⟩
  · show percentValid 0 0 = FVal.nan
    simp [percentValid, fdiv, fmul]
  · show percentValid 0 0 ≠ FVal.finite 0
    simp [percentValid, fdiv, fmul]

/-- **C9.** Whenever an output path was given (and the file was created),
the success message is printed and `main` exits with `Ok` even when a
per-line write failed mid-stream. -/
theorem success_message_despite_write_failure (contents : String)
    (tr : Bool) (fails : Nat → Bool)
    (hfail : (runProgram contents tr (some fails)).failNotice = true) :
    (runProgram contents tr (some fails)).successNotice = true ∧
    (runProgram contents tr (some fails)).exitOk = true :=
  ⟨rfl, rfl⟩

/-- Witness for C9: always-failing writer on input `fig`; the failure
notice is printed, yet the success message appears and `main` ends `Ok`. -/
theorem success_message_despite_write_failure_witness :
    (runProgram "fig\n" false (some fun _ => true)).successNotice = true ∧
    (runProgram "fig\n" false (some fun _ => true)).exitOk = true :=
  success_message_despite_write_failure "fig\n" false (fun _ => true)
    (by decide)

theorem find_words_eq_filter_map (wordlist : List String) (tr : Bool) :
    find_words wordlist tr
      = (wordlist.filter fun x => wordQualifies x).map (mkEntry tr) := by
  induction wordlist with
  | nil => rfl
  | cons a l ih =>
    simp only [find_words] at ih
    by_cases h : wordQualifies a = true <;>
      simp [find_words, List.filterMap_cons, List.filter_cons, h, ih]

/-- **C10.** No deduplication anywhere: each retained input occurrence is
filtered independently (`find_words` is filter-then-format), so a
qualifying word occurring `k` times contributes `k` entries to the result
set (also after sorting) and `k` to the counts. -/
theorem duplicates_not_deduplicated (wordlist : List String) (tr : Bool)
    (w : String) (k : Nat) (hq : wordQualifies w = true) :
    find_words wordlist tr
        = (wordlist.filter fun x => wordQualifies x).map (mkEntry tr) ∧
    find_words (List.replicate k w) tr = List.replicate k (mkEntry tr w) ∧
    (find_words (List.replicate k w) tr).length = k ∧
    (sortResults (find_words (List.replicate k w) tr)).length = k := by
  have h2 : find_words (List.replicate k w) tr
      = List.replicate k (mkEntry tr w) := by
    rw [find_words_eq_filter_map]
    rw [List.filter_replicate]
    simp [hq]
  refine ⟨find_words_eq_filter_map wordlist tr, h2, ?_, ?_⟩
  · rw [h2, List.length_replicate]
  · rw [sortResults,
      (List.perm_insertionSort strLe
        (find_words (List.replicate k w) tr)).length_eq,
      h2, List.length_replicate]

/-- Witness for C10: the qualifying word `cab` twice gives two entries. -/
theorem duplicates_not_deduplicated_witness :
    find_words (List.replicate 2 "cab") false
        = List.replicate 2 (mkEntry false "cab") ∧
    (find_words (List.replicate 2 "cab") false).length = 2 :=
  ⟨(duplicates_not_deduplicated [] false "cab" 2 (by decide)).2.1,
   (duplicates_not_deduplicated [] false "cab" 2 (by decide)).2.2.1⟩

end HexWords
